import Mathlib

/-!
Verification of the PDF outline extractor (`main.py`) against its
natural-language specification.

The extractor's core is shallowly embedded here:
* font sizes are modelled as exact rationals (`ℚ`),
* Python strings are modelled as Lean `String` (a list of characters),
  restricted to the ASCII behaviour of the Python string predicates,
* the anchored regular expressions of `is_heading_by_pattern` are
  translated into executable character-list matchers.  Python compiles
  every one of those patterns with `re.IGNORECASE`, and the matchers
  below reproduce that: every character class is case-folded.
* fallible document opening (`fitz.open` inside `try/except`) is
  modelled by an `Except` input to `extract_outline`.
-/

/-! ### Character helpers (ASCII behaviour of Python's str methods) -/

/-- Python's `\s` / `str.strip()` whitespace class, ASCII part. -/
def isPySpace (c : Char) : Bool :=
  c == ' ' || c == '\t' || c == '\n' || c == '\x0b' || c == '\x0c' || c == '\r'

/-- A lower-case ASCII letter (used in claim statements). -/
def isLowerAlpha (c : Char) : Bool :=
  'a' ≤ c && c ≤ 'z'

/-- Model of `str.strip()` on a character list: drop leading and trailing whitespace. -/
def pyStripList (l : List Char) : List Char :=
  ((l.dropWhile isPySpace).reverse.dropWhile isPySpace).reverse

/-- Model of `str.strip()`. -/
def pyStrip (s : String) : String :=
  ⟨pyStripList s.data⟩

/-- Model of `str.lower()` (ASCII). -/
def pyLower (s : String) : String :=
  ⟨s.data.map Char.toLower⟩

/-- Model of `str.isupper()` (ASCII): at least one cased character and no
lower-case cased character. -/
def pyIsUpper (s : String) : Bool :=
  s.data.any Char.isAlpha && s.data.all (fun c => !c.isAlpha || c.isUpper)

/-- Number of words of `len(text.split())`: counts maximal runs of
non-whitespace characters.  The flag records whether we are inside a run. -/
def wordCountAux : Bool → List Char → Nat
  | _, [] => 0
  | inw, c :: t =>
    if isPySpace c then wordCountAux false t
    else (if inw then 0 else 1) + wordCountAux true t

/-- Model of `len(text.split())`. -/
def wordCount (l : List Char) : Nat :=
  wordCountAux false l

/-- Model of `re.sub(r'\s+', ' ', text)`: each maximal whitespace run becomes one
space.  The flag records whether the previous character was whitespace. -/
def collapseAux : Bool → List Char → List Char
  | _, [] => []
  | prev, c :: t =>
    if isPySpace c then
      if prev then collapseAux true t else ' ' :: collapseAux true t
    else c :: collapseAux false t

/-- Model of `re.sub(r'\s+', ' ', text).strip()` from the heading clean-up. -/
def normalizeWs (s : String) : String :=
  ⟨pyStripList (collapseAux false s.data)⟩

/-- Does `needle` occur at the head of `hay`? -/
def startsWithList : List Char → List Char → Bool
  | [], _ => true
  | _ :: _, [] => false
  | a :: as, b :: bs => a == b && startsWithList as bs

/-- Python's substring test `needle in hay`. -/
def listContains (needle : List Char) : List Char → Bool
  | [] => needle.isEmpty
  | c :: t => startsWithList needle (c :: t) || listContains needle t

/-! ### The anchored regexes of `is_heading_by_pattern`
All are compiled with `re.IGNORECASE` in the source, so `[A-Z]` and
`[a-z]` both denote an arbitrary ASCII letter here. -/

/-- Matcher for `re.match(r'^\d+\.?\s+[A-Z]', ·, re.IGNORECASE)`. -/
def matchNumbered (l : List Char) : Bool :=
  let ds := l.takeWhile Char.isDigit
  let r1 := l.dropWhile Char.isDigit
  if ds.isEmpty then false
  else
    let r2 := match r1 with
      | '.' :: t => t
      | _ => r1
    let sp := r2.takeWhile isPySpace
    let r3 := r2.dropWhile isPySpace
    if sp.isEmpty then false
    else
      match r3 with
      | c :: _ => c.isAlpha
      | [] => false

/-- Consume a literal keyword, case-insensitively (keyword given in
lower case). -/
def eatKeywordCI : List Char → List Char → Option (List Char)
  | [], l => some l
  | _ :: _, [] => none
  | k :: ks, c :: cs => if c.toLower == k then eatKeywordCI ks cs else none

/-- Matcher for `re.match(r'^<kw>\s+\d+', ·, re.IGNORECASE)` with `kw` ∈ {Chapter, Section}. -/
def matchKwNum (kw : List Char) (l : List Char) : Bool :=
  match eatKeywordCI kw l with
  | none => false
  | some r =>
    let sp := r.takeWhile isPySpace
    let r2 := r.dropWhile isPySpace
    if sp.isEmpty then false
    else
      match r2 with
      | c :: _ => c.isDigit
      | [] => false

/-- Matcher for `re.match(r'^Part\s+[IVX]+', ·, re.IGNORECASE)`. -/
def matchPart (l : List Char) : Bool :=
  match eatKeywordCI "part".data l with
  | none => false
  | some r =>
    let sp := r.takeWhile isPySpace
    let r2 := r.dropWhile isPySpace
    if sp.isEmpty then false
    else
      match r2 with
      | c :: _ => c.toLower == 'i' || c.toLower == 'v' || c.toLower == 'x'
      | [] => false

/-- Matcher for `re.match(r'^[A-Z][A-Z\s]{5,}$', ·, re.IGNORECASE)`: under IGNORECASE
this accepts any letter, so a full match is exactly: length ≥ 6, first
character a letter, every further character a letter or whitespace. -/
def matchAllCaps : List Char → Bool
  | [] => false
  | c :: t => c.isAlpha && decide (5 ≤ t.length) && t.all (fun d => d.isAlpha || isPySpace d)

/-- Fuel-driven loop for the Title-Case regex
`^[A-Z][a-z]+(?:\s+[A-Z][a-z]+)*[.:]?$` under IGNORECASE: a word is ≥2
letters, words are separated by whitespace runs, an optional final `.`
or `:`.  The fuel only serves structural recursion; `matchTitleCase`
supplies enough of it. -/
def tcLoop : Nat → List Char → Bool
  | 0, _ => false
  | fuel + 1, l =>
    let w := l.takeWhile Char.isAlpha
    let r := l.dropWhile Char.isAlpha
    if w.length < 2 then false
    else
      match r with
      | [] => true
      | c :: t =>
        if isPySpace c then tcLoop fuel (t.dropWhile isPySpace)
        else (c == '.' || c == ':') && t.isEmpty

/-- Matcher for `re.match(r'^[A-Z][a-z]+(?:\s+[A-Z][a-z]+)*[.:]?$', ·, re.IGNORECASE)`. -/
def matchTitleCase (l : List Char) : Bool :=
  tcLoop (l.length + 1) l

/-- Matcher for `re.match(r'^\d+\.\d+', ·, re.IGNORECASE)`. -/
def matchDecimal (l : List Char) : Bool :=
  let ds := l.takeWhile Char.isDigit
  let r := l.dropWhile Char.isDigit
  if ds.isEmpty then false
  else
    match r with
    | '.' :: c :: _ => c.isDigit
    | _ => false

/-- Model of `text_clean[0].isupper()`; Python raises on the empty string, which
is unreachable from the extractor (callers pass stripped text of length
≥ 3), so the model returns `false` there. -/
def headUpper : List Char → Bool
  | [] => false
  | c :: _ => c.isUpper

/-- Model of `text_clean.endswith(('.', '!', '?'))`. -/
def endsPunct (l : List Char) : Bool :=
  match l.getLast? with
  | some c => c == '.' || c == '!' || c == '?'
  | none => false

/-- Model of `PDFOutlineExtractor.is_heading_by_pattern` (main.py lines 104–130):
the seven anchored regexes tried in order, then the generic-shape check
(≤ 8 words, capitalised first character, no terminal sentence
punctuation, length > 3). -/
def is_heading_by_pattern (text : String) : Bool :=
  let tc := pyStripList text.data
  matchNumbered tc || matchKwNum "chapter".data tc || matchKwNum "section".data tc
    || matchPart tc || matchAllCaps tc || matchTitleCase tc || matchDecimal tc
    || (decide (wordCount tc ≤ 8) && headUpper tc && !endsPunct tc
        && decide (3 < tc.length))

/-! ### Heading level decision -/

/-- The guarded size ratio of `determine_heading_level` (main.py line 90):
`font_size / avg_font_size if avg_font_size > 0 else 1`. -/
def sizeRatio (font_size avg_font_size : ℚ) : ℚ :=
  if 0 < avg_font_size then font_size / avg_font_size else 1

/-- Model of `PDFOutlineExtractor.determine_heading_level` (main.py lines 85–102); the
`text` parameter is accepted and ignored, as in the source. -/
def determine_heading_level (text : String) (font_size : ℚ) (is_bold : Bool)
    (avg_font_size max_font_size : ℚ) : Option String :=
  if 1.8 ≤ sizeRatio font_size avg_font_size ∨ max_font_size * 0.9 ≤ font_size then
    some "H1"
  else if 1.4 ≤ sizeRatio font_size avg_font_size ∨ max_font_size * 0.7 ≤ font_size then
    some "H2"
  else if 1.2 ≤ sizeRatio font_size avg_font_size ∨ max_font_size * 0.6 ≤ font_size then
    some "H3"
  else if is_bold = true ∧ 1.1 ≤ sizeRatio font_size avg_font_size then some "H3"
  else none

/-! ### Data model -/

/-- A styled span as delivered by the text-extraction collaborator
(`span["text"]`, `span["size"]`, bold bit of `span["flags"]`). -/
structure Span where
  text : String
  font_size : ℚ
  is_bold : Bool
deriving DecidableEq

/-- One formatted text fragment (main.py lines 51–58). -/
structure Fragment where
  text : String
  font_size : ℚ
  is_bold : Bool
  page : ℕ
deriving DecidableEq

/-- A document handle: optional metadata title plus the spans of each page. -/
structure Document where
  title : Option String
  pages : List (List Span)

/-- One outline entry `{level, text, page}`. -/
structure Heading where
  level : String
  text : String
  page : ℕ
deriving DecidableEq

/-- The final per-document result `{title, outline}`. -/
structure OutlineResult where
  title : String
  outline : List Heading
deriving DecidableEq

/-- Model of `PDFOutlineExtractor.extract_text_with_formatting` (main.py lines
41–60): keep the non-empty stripped spans, tagging the 1-based page. -/
def extract_text_with_formatting (pageNum : ℕ) (spans : List Span) : List Fragment :=
  spans.filterMap fun s =>
    let t := pyStrip s.text
    if t.length = 0 then none
    else some ⟨t, s.font_size, s.is_bold, pageNum⟩

/-- All fragments of the document in page order (first pass of
`extract_outline`, main.py lines 200–203). -/
def allFragments (doc : Document) : List Fragment :=
  (doc.pages.enum.map fun p => extract_text_with_formatting (p.1 + 1) p.2).flatten

/-- The document-wide font sizes (main.py line 210). -/
def docFontSizes (doc : Document) : List ℚ :=
  (allFragments doc).map Fragment.font_size

/-- The `avg_font_size` statistic (main.py line 211). -/
def docAvg (doc : Document) : ℚ :=
  (docFontSizes doc).sum / ((docFontSizes doc).length : ℚ)

/-- The `max_font_size` statistic (main.py line 212), as the fold Python's `max` performs. -/
def docMax (doc : Document) : ℚ :=
  (docFontSizes doc).foldl max ((docFontSizes doc).headD 0)

/-- The per-fragment heading decision of `extract_outline`
(main.py lines 217–250): length pre-filter, size-driven path guarded by
`font_size > avg*1.1`, then the pattern/bold fallback, then whitespace
normalisation of the accepted text. -/
def classify_fragment (avg maxs : ℚ) (f : Fragment) : Option Heading :=
  if (pyStrip f.text).length < 3 ∨ 200 < (pyStrip f.text).length then none
  else
    match (match (if avg * 1.1 < f.font_size then
                    determine_heading_level (pyStrip f.text) f.font_size f.is_bold avg maxs
                  else none) with
           | some l => some l
           | none =>
             if f.is_bold || is_heading_by_pattern (pyStrip f.text) then
               if avg * 1.4 ≤ f.font_size then some "H1"
               else if avg * 1.2 ≤ f.font_size then some "H2"
               else if f.is_bold || is_heading_by_pattern (pyStrip f.text) then some "H3"
               else none
             else none) with
    | some l => some ⟨l, normalizeWs (pyStrip f.text), f.page⟩
    | none => none

/-- The classified stream, in extraction order (main.py lines 217–250). -/
def rawHeadings (doc : Document) : List Heading :=
  (allFragments doc).filterMap (classify_fragment (docAvg doc) (docMax doc))

/-- The dedup key `(item["level"], item["text"].lower(), item["page"])`
(main.py line 256). -/
def keyOf (h : Heading) : String × String × ℕ :=
  (h.level, pyLower h.text, h.page)

/-- The dedup loop over the `seen` set (main.py lines 253–259): keep an
entry iff its key has not been seen yet. -/
def dedupGo (seen : List (String × String × ℕ)) : List Heading → List Heading
  | [] => []
  | h :: t =>
    if keyOf h ∈ seen then dedupGo seen t
    else h :: dedupGo (keyOf h :: seen) t

/-- Lexicographic (code-point) comparison of character lists: Python's
`str` ordering used as sort tiebreak. -/
def charListLe : List Char → List Char → Bool
  | [], _ => true
  | _ :: _, [] => false
  | a :: as, b :: bs =>
    if a.toNat < b.toNat then true
    else if b.toNat < a.toNat then false
    else charListLe as bs

/-- The sort key `(x["page"], x["text"])` of main.py line 261, as a
non-strict comparison. -/
def outlineLe (a b : Heading) : Bool :=
  decide (a.page < b.page) || (decide (a.page = b.page) && charListLe a.text.data b.text.data)

/-! ### Title selection -/

/-- The fixed lexicon of `is_title_candidate` (main.py line 78). -/
def titleLexicon : List String :=
  ["introduction", "overview", "guide", "manual", "report"]

/-- Model of `PDFOutlineExtractor.is_title_candidate` (main.py lines 66–83). -/
def is_title_candidate (text : String) (font_size : ℚ) (is_bold : Bool)
    (page_num : ℕ) : Bool :=
  if 2 < page_num then false
  else if text.length < 5 ∨ 200 < text.length then false
  else
    let i1 : Bool := !pyIsUpper text || decide (text.length < 50)
    let i2 : Bool := titleLexicon.any fun w => listContains w.data (pyLower text).data
    let i3 : Bool := decide ((14 : ℚ) < font_size)
    let i4 : Bool := is_bold
    decide (2 ≤ i1.toNat + i2.toNat + i3.toNat + i4.toNat)

/-- A scored title candidate (main.py lines 166–171). -/
structure TitleCandidate where
  text : String
  font_size : ℚ
  page : ℕ
  score : ℚ
deriving DecidableEq

/-- The candidates contributed by 0-based page `i` (main.py lines
145–171); the per-page font statistics computed there are never used by
the candidacy test. -/
def pageCandidates (i : ℕ) (pg : List Span) : List TitleCandidate :=
  (extract_text_with_formatting (i + 1) pg).filterMap fun it =>
    let text := pyStrip it.text
    if is_title_candidate text it.font_size it.is_bold (i + 1) then
      some ⟨text, it.font_size, i + 1,
            it.font_size + (if it.is_bold then (10 : ℚ) else 0)
              + (if i = 0 then (5 : ℚ) else 0)⟩
    else none

/-- All candidates of the first `min(3, page_count)` pages, in
page-then-fragment order. -/
def titleCandidates (doc : Document) : List TitleCandidate :=
  ((doc.pages.take 3).enum.map fun p => pageCandidates p.1 p.2).flatten

/-- Python's `max(l, key=f)` on `x :: l`: the first element of maximal
key wins, since the fold only replaces on strictly greater key. -/
def pyMaxBy {α : Type} (f : α → ℚ) (x : α) (l : List α) : α :=
  l.foldl (fun b c => if f b < f c then c else b) x

/-- The metadata short-circuit of `extract_title` (main.py lines
135–140): a truthy metadata title with non-empty strip and stripped
length strictly between 5 and 200 is returned; otherwise the page scan
runs. -/
def metaTitle (doc : Document) : Option String :=
  match doc.title with
  | none => none
  | some t =>
    if t = "" then none
    else if (pyStrip t).length = 0 then none
    else if 5 < (pyStrip t).length ∧ (pyStrip t).length < 200 then some (pyStrip t)
    else none

/-- Model of `PDFOutlineExtractor.extract_title` (main.py lines 132–179). -/
def extract_title (doc : Document) : String :=
  match metaTitle doc with
  | some t => t
  | none =>
    match titleCandidates doc with
    | [] => "Document"
    | c :: cs => (pyMaxBy TitleCandidate.score c cs).text

/-- Model of `PDFOutlineExtractor.extract_outline` (main.py lines 181–269); the
`try/except` around `fitz.open` is the `Except` input. -/
def extract_outline (input : Except String Document) : OutlineResult :=
  match input with
  | .error _ => ⟨"Error", []⟩
  | .ok doc =>
    let title := extract_title doc
    if (allFragments doc).isEmpty then ⟨title, []⟩
    else ⟨title, (dedupGo [] (rawHeadings doc)).mergeSort outlineLe⟩

/-! ### Helper lemmas about characters and stripping -/

theorem lower_isAlpha {c : Char} (h : isLowerAlpha c = true) : c.isAlpha = true := by
  simp only [isLowerAlpha, Bool.and_eq_true, decide_eq_true_eq] at h
  simp only [Char.isAlpha, Char.isLower, Bool.or_eq_true, Bool.and_eq_true,
    decide_eq_true_eq]
  right
  exact ⟨h.1, h.2⟩

theorem lower_not_space {c : Char} (h : isLowerAlpha c = true) : isPySpace c = false := by
  by_contra hne
  have hs : isPySpace c = true := by
    cases hps : isPySpace c
    · exact absurd hps hne
    · rfl
  simp only [isPySpace, Bool.or_eq_true, beq_iff_eq] at hs
  rcases hs with ((((h1 | h1) | h1) | h1) | h1) | h1 <;> subst h1 <;>
    exact absurd h (by decide)

theorem pyStripList_eq_self {l : List Char}
    (hhead : ∀ c, l.head? = some c → isPySpace c = false)
    (hlast : ∀ c, l.getLast? = some c → isPySpace c = false) :
    pyStripList l = l := by
  cases l with
  | nil => rfl
  | cons a t =>
    have h1 : (a :: t).dropWhile isPySpace = a :: t := by
      rw [List.dropWhile_cons, hhead a rfl]
      simp
    unfold pyStripList
    rw [h1]
    cases hrev : (a :: t).reverse with
    | nil => simp at hrev
    | cons d t' =>
      have hd : (a :: t).getLast? = some d := by
        rw [List.getLast?_eq_head?_reverse, hrev]
        rfl
      rw [List.dropWhile_cons, hlast d hd]
      simp only [if_false, Bool.false_eq_true]
      rw [← hrev, List.reverse_reverse]

/-- C1: Scenario B.  For the fragment `"1.1 Background"`, font size 13, not
bold, page 3, with document average 12 and maximum 24: the size-driven path is
not entered (13 is not greater than 12·1.1), the text matches the
heading-pattern test (decimal sub-numbering), 13 is below 12·1.4 and below
12·1.2, and the classifier emits the heading `H3 "1.1 Background"` on page 3. -/
theorem scenarioB_classified_H3 :
    ¬ ((12 : ℚ) * 1.1 < 13) ∧
    is_heading_by_pattern "1.1 Background" = true ∧
    ¬ ((12 : ℚ) * 1.4 ≤ 13) ∧ ¬ ((12 : ℚ) * 1.2 ≤ 13) ∧
    classify_fragment 12 24 ⟨"1.1 Background", 13, false, 3⟩
      = some ⟨"H3", "1.1 Background", 3⟩ := by
  refine ⟨by norm_num, by decide, by norm_num, by norm_num, ?_⟩
  with_unfolding_all decide

/-- C2 (counterexample): the trimmed text `"background"` consists solely of
lower-case letters, yet the heading-pattern test returns `true` — every
regex is compiled with `re.IGNORECASE`, so `"background"` matches both the
ALL-CAPS-run regex and the Title-Case regex.  This refutes the claim that
the test returns `false` on all such texts. -/
theorem lowercase_matches_pattern_cex :
    (∀ c ∈ "background".data, isLowerAlpha c = true) ∧
    is_heading_by_pattern "background" = true := by
  constructor
  · decide
  · decide

/-- C2 (amended): because every regex of the heading-pattern test is applied
case-insensitively, a trimmed text consisting solely of lower-case letters
and spaces is NOT rejected in general: whenever its length is at least 6 it
matches the case-folded ALL-CAPS-run regex `^[A-Z][A-Z\s]{5,}$` and the test
returns `true`. -/
theorem lowercase_trimmed_matches_pattern (s : String)
    (hlow : s.data.all (fun c => isLowerAlpha c || c == ' ') = true)
    (hhead : s.data.head?.all isLowerAlpha = true)
    (hlast : s.data.getLast?.all isLowerAlpha = true)
    (hlen : 6 ≤ s.length) :
    is_heading_by_pattern s = true := by
  have hhead' : ∀ c, s.data.head? = some c → isLowerAlpha c = true := by
    intro c hc
    rw [hc] at hhead
    exact hhead
  have hlast' : ∀ c, s.data.getLast? = some c → isLowerAlpha c = true := by
    intro c hc
    rw [hc] at hlast
    exact hlast
  have hlow' : ∀ c ∈ s.data, isLowerAlpha c = true ∨ c = ' ' := by
    intro c hc
    have h1 := List.all_eq_true.mp hlow c hc
    simp only [Bool.or_eq_true] at h1
    rcases h1 with h2 | h2
    · exact Or.inl h2
    · exact Or.inr (beq_iff_eq.mp h2)
  have hstrip : pyStripList s.data = s.data :=
    pyStripList_eq_self
      (fun c hc => lower_not_space (hhead' c hc))
      (fun c hc => lower_not_space (hlast' c hc))
  have hlen' : 6 ≤ s.data.length := hlen
  cases hsd : s.data with
  | nil => rw [hsd] at hlen'; simp at hlen'
  | cons a t =>
    have hcaps : matchAllCaps (a :: t) = true := by
      have ha : a.isAlpha = true := lower_isAlpha (hhead' a (by rw [hsd]; rfl))
      have ht : t.all (fun d => d.isAlpha || isPySpace d) = true := by
        rw [List.all_eq_true]
        intro d hd
        rcases hlow' d (by rw [hsd]; exact List.mem_cons_of_mem _ hd) with hl | hsp
        · rw [lower_isAlpha hl]; rfl
        · subst hsp; decide
      rw [hsd] at hlen'
      simp only [List.length_cons] at hlen'
      have h5 : decide (5 ≤ t.length) = true := decide_eq_true (by omega)
      show (a.isAlpha && decide (5 ≤ t.length)
        && t.all fun d => d.isAlpha || isPySpace d) = true
      rw [ha, h5, ht]
      rfl
    unfold is_heading_by_pattern
    rw [hstrip, hsd]
    simp [hcaps]

/-- Witness for the amended C2 at the lower-case text `"table of contents"`. -/
theorem lowercase_trimmed_matches_pattern_witness :
    ("table of contents".data.all (fun c => isLowerAlpha c || c == ' ') = true) ∧
    ("table of contents".data.head?.all isLowerAlpha = true) ∧
    ("table of contents".data.getLast?.all isLowerAlpha = true) ∧
    6 ≤ "table of contents".length ∧
    is_heading_by_pattern "table of contents" = true :=
  ⟨by decide, by decide, by decide, by decide,
    lowercase_trimmed_matches_pattern _ (by decide) (by decide) (by decide) (by decide)⟩

/-- C8: for every input whose document cannot be opened, `extract_outline`
returns exactly the result with title `"Error"` and an empty outline; the
failure does not propagate. -/
theorem open_failure_error_result (e : String) :
    extract_outline (Except.error e) = ⟨"Error", []⟩ := rfl

/-- C9: the heading-level computation is total and never divides by zero:
with `average_size = 0` the guarded size ratio is `1` (not a division), and
the level decision then depends only on the max-size comparisons. -/
theorem heading_level_total_zero_avg (text : String) (fs : ℚ) (b : Bool) (maxs : ℚ) :
    sizeRatio fs 0 = 1 ∧
    determine_heading_level text fs b 0 maxs
      = (if maxs * 0.9 ≤ fs then some "H1"
         else if maxs * 0.7 ≤ fs then some "H2"
         else if maxs * 0.6 ≤ fs then some "H3"
         else none) := by
  have h0 : sizeRatio fs 0 = 1 := by
    unfold sizeRatio
    norm_num
  refine ⟨h0, ?_⟩
  unfold determine_heading_level
  rw [h0]
  norm_num

/-! ### Title selector theorems -/

/-- C5: a non-empty metadata title whose trimmed length is strictly between
5 and 200 is returned verbatim (trimmed), regardless of the page content. -/
theorem metadata_title_short_circuit (doc : Document) (t : String)
    (hsome : doc.title = some t) (hne : t ≠ "")
    (h5 : 5 < (pyStrip t).length) (h200 : (pyStrip t).length < 200) :
    extract_title doc = pyStrip t := by
  have hmt : metaTitle doc = some (pyStrip t) := by
    simp only [metaTitle, hsome]
    rw [if_neg hne, if_neg (show ¬ (pyStrip t).length = 0 by omega),
      if_pos ⟨h5, h200⟩]
  simp only [extract_title, hmt]

/-- Witness for C5 at a concrete document whose pages contain a competing
high-scoring candidate. -/
theorem metadata_title_short_circuit_witness :
    (Document.mk (some "A Real Document Title")
        [[⟨"Ignored Huge Candidate", 48, true⟩]]).title = some "A Real Document Title" ∧
    "A Real Document Title" ≠ "" ∧
    5 < (pyStrip "A Real Document Title").length ∧
    (pyStrip "A Real Document Title").length < 200 ∧
    extract_title ⟨some "A Real Document Title", [[⟨"Ignored Huge Candidate", 48, true⟩]]⟩
      = pyStrip "A Real Document Title" :=
  ⟨rfl, by decide, by decide, by decide,
    metadata_title_short_circuit _ _ rfl (by decide) (by decide) (by decide)⟩

/-- C7 (counterexample): the length check of `is_title_candidate` is
`len < 5 or len > 200`, so a text of length exactly 5 passes it; `"Guide"`
(length 5) is accepted by the candidacy test and is even selected as the
document title, refuting "a fragment whose text length is exactly 5 … is
never selected as a title candidate". -/
theorem title_length_five_selected_cex :
    ("Guide".length = 5) ∧
    is_title_candidate "Guide" 10 false 1 = true ∧
    extract_title ⟨none, [[⟨"Guide", 10, false⟩]]⟩ = "Guide" := by
  refine ⟨rfl, ?_, ?_⟩ <;> with_unfolding_all decide

/-- C7 (amended): a fragment is subjected to the title-candidacy indicators
only if its text length lies in the inclusive range [5, 200]; a fragment
whose text length is less than 5 or greater than 200 is never a title
candidate (lengths exactly 5 and exactly 200 are admissible, as the
counterexample shows). -/
theorem title_candidate_length_bounds (text : String) (fs : ℚ) (b : Bool) (p : ℕ)
    (h : text.length < 5 ∨ 200 < text.length) :
    is_title_candidate text fs b p = false := by
  unfold is_title_candidate
  by_cases hp : 2 < p
  · rw [if_pos hp]
  · rw [if_neg hp, if_pos h]

/-- Witness for C7's amended bound at the length-2 text `"Hi"`. -/
theorem title_candidate_length_bounds_witness :
    ("Hi".length < 5 ∨ 200 < "Hi".length) ∧
    is_title_candidate "Hi" 20 true 1 = false :=
  ⟨by decide, title_candidate_length_bounds "Hi" 20 true 1 (by decide)⟩

/-- Python's `max(candidates, key=score)` keeps the first element of maximal
key: the fold's result splits the list into strictly-smaller predecessors
and no-larger successors. -/
theorem pyMaxBy_first_max {α : Type} (f : α → ℚ) :
    ∀ (l : List α) (x : α), ∃ l₁ l₂,
      x :: l = l₁ ++ pyMaxBy f x l :: l₂ ∧
      (∀ y ∈ l₁, f y < f (pyMaxBy f x l)) ∧
      (∀ y ∈ l₂, f y ≤ f (pyMaxBy f x l)) := by
  intro l
  induction l with
  | nil =>
    intro x
    exact ⟨[], [], rfl, by simp, by simp⟩
  | cons y t ih =>
    intro x
    have hstep : pyMaxBy f x (y :: t) = pyMaxBy f (if f x < f y then y else x) t := rfl
    by_cases hxy : f x < f y
    · rw [if_pos hxy] at hstep
      obtain ⟨l₁, l₂, heq, hlt, hle⟩ := ih y
      have hym : f y ≤ f (pyMaxBy f y t) := by
        have hy : y ∈ l₁ ++ pyMaxBy f y t :: l₂ := heq ▸ List.mem_cons_self y t
        rcases List.mem_append.mp hy with hy1 | hy2
        · exact le_of_lt (hlt y hy1)
        · rcases List.mem_cons.mp hy2 with he | hy3
          · exact le_of_eq (congrArg f he)
          · exact hle y hy3
      refine ⟨x :: l₁, l₂, ?_, ?_, ?_⟩
      · rw [hstep, List.cons_append, ← heq]
      · intro z hz
        rw [hstep]
        rcases List.mem_cons.mp hz with rfl | hz1
        · exact lt_of_lt_of_le hxy hym
        · exact hlt z hz1
      · intro z hz
        rw [hstep]
        exact hle z hz
    · rw [if_neg hxy] at hstep
      obtain ⟨l₁, l₂, heq, hlt, hle⟩ := ih x
      have hyx : f y ≤ f x := le_of_not_lt hxy
      rcases l₁ with - | ⟨a, l₁⟩
      · simp only [List.nil_append] at heq
        injection heq with h1 h2
        refine ⟨[], y :: t, ?_, by simp, ?_⟩
        · rw [hstep, ← h1, List.nil_append]
        · intro z hz
          rw [hstep, ← h1]
          rcases List.mem_cons.mp hz with rfl | hz1
          · exact hyx
          · have hzl := hle z (h2 ▸ hz1)
            rw [← h1] at hzl
            exact hzl
      · rw [List.cons_append] at heq
        injection heq with h1 h2
        subst h1
        refine ⟨x :: y :: l₁, l₂, ?_, ?_, ?_⟩
        · rw [hstep, List.cons_append, List.cons_append, ← h2]
        · intro z hz
          rw [hstep]
          have hxm : f x < f (pyMaxBy f x t) := hlt x (List.mem_cons_self _ _)
          rcases List.mem_cons.mp hz with rfl | hz1
          · exact hxm
          · rcases List.mem_cons.mp hz1 with rfl | hz2
            · exact lt_of_le_of_lt hyx hxm
            · exact hlt z (List.mem_cons_of_mem _ hz2)
        · intro z hz
          rw [hstep]
          exact hle z hz

/-- C6: when the metadata short-circuit does not fire and at least one title
candidate exists in the scanned pages, the selector returns the text of the
maximal-score candidate, and among equal maximal scores the candidate
encountered first in page-then-fragment order wins: the candidate list
splits into strictly-lower-scoring predecessors and no-higher-scoring
successors around the returned candidate. -/
theorem title_selector_first_max (doc : Document)
    (hmeta : ∀ t, doc.title = some t →
      ¬(5 < (pyStrip t).length ∧ (pyStrip t).length < 200))
    (hne : titleCandidates doc ≠ []) :
    ∃ m l₁ l₂,
      extract_title doc = m.text ∧
      titleCandidates doc = l₁ ++ m :: l₂ ∧
      (∀ y ∈ l₁, y.score < m.score) ∧
      (∀ y ∈ l₂, y.score ≤ m.score) := by
  have hmt : metaTitle doc = none := by
    unfold metaTitle
    cases hdt : doc.title with
    | none => rfl
    | some t =>
      show (if t = "" then none
            else if (pyStrip t).length = 0 then none
            else if 5 < (pyStrip t).length ∧ (pyStrip t).length < 200 then
              some (pyStrip t)
            else none) = none
      split_ifs with h1 h2 h3
      · rfl
      · rfl
      · exact absurd h3 (hmeta t hdt)
      · rfl
  cases hc : titleCandidates doc with
  | nil => exact absurd hc hne
  | cons c cs =>
    obtain ⟨l₁, l₂, heq, hlt, hle⟩ := pyMaxBy_first_max TitleCandidate.score cs c
    refine ⟨pyMaxBy TitleCandidate.score c cs, l₁, l₂, ?_, ?_, hlt, hle⟩
    · simp only [extract_title, hmt, hc]
    · exact heq

/-- Witness for C6: a document with two tying candidates; the first one in
fragment order is selected. -/
theorem title_selector_first_max_witness :
    (∀ t, (Document.mk none [[⟨"User Guide Alpha", 20, false⟩,
        ⟨"User Guide Beta", 20, false⟩]]).title = some t →
      ¬(5 < (pyStrip t).length ∧ (pyStrip t).length < 200)) ∧
    titleCandidates ⟨none, [[⟨"User Guide Alpha", 20, false⟩,
        ⟨"User Guide Beta", 20, false⟩]]⟩ ≠ [] ∧
    ∃ m l₁ l₂,
      extract_title ⟨none, [[⟨"User Guide Alpha", 20, false⟩,
          ⟨"User Guide Beta", 20, false⟩]]⟩ = m.text ∧
      titleCandidates ⟨none, [[⟨"User Guide Alpha", 20, false⟩,
          ⟨"User Guide Beta", 20, false⟩]]⟩ = l₁ ++ m :: l₂ ∧
      (∀ y ∈ l₁, y.score < m.score) ∧
      (∀ y ∈ l₂, y.score ≤ m.score) :=
  ⟨fun t h => Option.noConfusion h, by with_unfolding_all decide,
    title_selector_first_max _ (fun t h => Option.noConfusion h)
      (by with_unfolding_all decide)⟩

/-! ### C10: bold fragments of admissible length are always headings -/

/-- C10: with positive average size, a bold fragment whose trimmed text
length is between 3 and 200 inclusive is always classified as some heading:
if the size path is entered, the bold branch with ratio ≥ 1.1 fires at the
latest; otherwise the pattern fallback is entered via boldness and its final
branch yields H3. -/
theorem bold_admissible_always_heading (avg maxs : ℚ) (f : Fragment)
    (havg : 0 < avg) (hb : f.is_bold = true)
    (h3 : 3 ≤ (pyStrip f.text).length) (h200 : (pyStrip f.text).length ≤ 200) :
    ∃ h, classify_fragment avg maxs f = some h := by
  have hpre : ¬ ((pyStrip f.text).length < 3 ∨ 200 < (pyStrip f.text).length) := by
    omega
  unfold classify_fragment
  rw [if_neg hpre]
  by_cases hsz : avg * 1.1 < f.font_size
  · have hratio : (1.1 : ℚ) ≤ sizeRatio f.font_size avg := by
      unfold sizeRatio
      rw [if_pos havg]
      have h1 : (1.1 : ℚ) * avg < f.font_size := by
        calc (1.1 : ℚ) * avg = avg * 1.1 := mul_comm _ _
          _ < f.font_size := hsz
      exact le_of_lt ((lt_div_iff havg).mpr h1)
    have hdet : ∃ l, determine_heading_level (pyStrip f.text) f.font_size f.is_bold
        avg maxs = some l := by
      unfold determine_heading_level
      by_cases c1 : (1.8 : ℚ) ≤ sizeRatio f.font_size avg ∨ maxs * 0.9 ≤ f.font_size
      · rw [if_pos c1]; exact ⟨_, rfl⟩
      · rw [if_neg c1]
        by_cases c2 : (1.4 : ℚ) ≤ sizeRatio f.font_size avg ∨ maxs * 0.7 ≤ f.font_size
        · rw [if_pos c2]; exact ⟨_, rfl⟩
        · rw [if_neg c2]
          by_cases c3 : (1.2 : ℚ) ≤ sizeRatio f.font_size avg ∨ maxs * 0.6 ≤ f.font_size
          · rw [if_pos c3]; exact ⟨_, rfl⟩
          · rw [if_neg c3, if_pos ⟨hb, hratio⟩]
            exact ⟨_, rfl⟩
    obtain ⟨l, hl⟩ := hdet
    rw [if_pos hsz, hl]
    exact ⟨_, rfl⟩
  · rw [if_neg hsz]
    have hcond : (f.is_bold || is_heading_by_pattern (pyStrip f.text)) = true := by
      rw [hb]
      rfl
    simp only [hcond]
    rw [if_pos trivial]
    by_cases h14 : avg * 1.4 ≤ f.font_size
    · rw [if_pos h14]; exact ⟨_, rfl⟩
    · rw [if_neg h14]
      by_cases h12 : avg * 1.2 ≤ f.font_size
      · rw [if_pos h12]; exact ⟨_, rfl⟩
      · rw [if_neg h12, if_pos trivial]
        exact ⟨_, rfl⟩

/-- Witness for C10 at a concrete bold fragment. -/
theorem bold_admissible_always_heading_witness :
    (0 : ℚ) < 10 ∧ (⟨"Bold Heading", 12, true, 1⟩ : Fragment).is_bold = true ∧
    3 ≤ (pyStrip (Fragment.text ⟨"Bold Heading", 12, true, 1⟩)).length ∧
    (pyStrip (Fragment.text ⟨"Bold Heading", 12, true, 1⟩)).length ≤ 200 ∧
    ∃ h, classify_fragment 10 20 ⟨"Bold Heading", 12, true, 1⟩ = some h :=
  ⟨by norm_num, rfl, by decide, by decide,
    bold_admissible_always_heading 10 20 ⟨"Bold Heading", 12, true, 1⟩
      (by norm_num) rfl (by decide) (by decide)⟩

/-! ### Ordering and deduplication lemmas -/

theorem charListLe_total : ∀ a b, charListLe a b = true ∨ charListLe b a = true := by
  intro a
  induction a with
  | nil => intro b; left; rfl
  | cons x xs ih =>
    intro b
    cases b with
    | nil => right; rfl
    | cons y ys =>
      show (if x.toNat < y.toNat then true
            else if y.toNat < x.toNat then false else charListLe xs ys) = true ∨
           (if y.toNat < x.toNat then true
            else if x.toNat < y.toNat then false else charListLe ys xs) = true
      by_cases h1 : x.toNat < y.toNat
      · left; rw [if_pos h1]
      · by_cases h2 : y.toNat < x.toNat
        · right; rw [if_pos h2]
        · rw [if_neg h1, if_neg h2, if_neg h2, if_neg h1]
          exact ih ys

theorem charListLe_trans :
    ∀ a b c, charListLe a b = true → charListLe b c = true → charListLe a c = true := by
  intro a
  induction a with
  | nil => intro b c _ _; rfl
  | cons x xs ih =>
    intro b c hab hbc
    cases b with
    | nil => exact Bool.noConfusion hab
    | cons y ys =>
      cases c with
      | nil => exact Bool.noConfusion hbc
      | cons z zs =>
        rw [show charListLe (x :: xs) (y :: ys)
            = (if x.toNat < y.toNat then true
               else if y.toNat < x.toNat then false else charListLe xs ys) from rfl] at hab
        rw [show charListLe (y :: ys) (z :: zs)
            = (if y.toNat < z.toNat then true
               else if z.toNat < y.toNat then false else charListLe ys zs) from rfl] at hbc
        show (if x.toNat < z.toNat then true
              else if z.toNat < x.toNat then false else charListLe xs zs) = true
        by_cases hxy : x.toNat < y.toNat
        · by_cases hyz : y.toNat < z.toNat
          · rw [if_pos (show x.toNat < z.toNat by omega)]
          · rw [if_neg hyz] at hbc
            by_cases hzy : z.toNat < y.toNat
            · rw [if_pos hzy] at hbc
              exact Bool.noConfusion hbc
            · rw [if_pos (show x.toNat < z.toNat by omega)]
        · rw [if_neg hxy] at hab
          by_cases hyx : y.toNat < x.toNat
          · rw [if_pos hyx] at hab
            exact Bool.noConfusion hab
          · rw [if_neg hyx] at hab
            by_cases hyz : y.toNat < z.toNat
            · rw [if_pos (show x.toNat < z.toNat by omega)]
            · rw [if_neg hyz] at hbc
              by_cases hzy : z.toNat < y.toNat
              · rw [if_pos hzy] at hbc
                exact Bool.noConfusion hbc
              · rw [if_neg hzy] at hbc
                rw [if_neg (show ¬ x.toNat < z.toNat by omega),
                  if_neg (show ¬ z.toNat < x.toNat by omega)]
                exact ih ys zs hab hbc

theorem outlineLe_trans (a b c : Heading) (hab : outlineLe a b = true)
    (hbc : outlineLe b c = true) : outlineLe a c = true := by
  simp only [outlineLe, Bool.or_eq_true, Bool.and_eq_true, decide_eq_true_eq] at hab hbc ⊢
  rcases hab with h1 | ⟨h1, h1'⟩
  · rcases hbc with h2 | ⟨h2, h2'⟩
    · left; omega
    · left; omega
  · rcases hbc with h2 | ⟨h2, h2'⟩
    · left; omega
    · right
      exact ⟨by omega, charListLe_trans _ _ _ h1' h2'⟩

theorem outlineLe_total (a b : Heading) : (outlineLe a b || outlineLe b a) = true := by
  simp only [outlineLe, Bool.or_eq_true, Bool.and_eq_true, decide_eq_true_eq]
  rcases Nat.lt_trichotomy a.page b.page with h | h | h
  · exact Or.inl (Or.inl h)
  · rcases charListLe_total a.text.data b.text.data with hc | hc
    · exact Or.inl (Or.inr ⟨h, hc⟩)
    · exact Or.inr (Or.inr ⟨h.symm, hc⟩)
  · exact Or.inr (Or.inl h)

theorem dedupGo_cons (seen : List (String × String × ℕ)) (h : Heading)
    (t : List Heading) :
    dedupGo seen (h :: t)
      = if keyOf h ∈ seen then dedupGo seen t
        else h :: dedupGo (keyOf h :: seen) t := rfl

theorem dedupGo_key_not_mem :
    ∀ (l : List Heading) (seen : List (String × String × ℕ)) (x : Heading),
      x ∈ dedupGo seen l → keyOf x ∉ seen := by
  intro l
  induction l with
  | nil =>
    intro seen x hx
    exact absurd hx (List.not_mem_nil x)
  | cons h t ih =>
    intro seen x hx
    rw [dedupGo_cons] at hx
    by_cases hk : keyOf h ∈ seen
    · rw [if_pos hk] at hx
      exact ih seen x hx
    · rw [if_neg hk] at hx
      rcases List.mem_cons.mp hx with rfl | hx'
      · exact hk
      · intro hmem
        exact ih _ x hx' (List.mem_cons_of_mem _ hmem)

theorem dedupGo_pairwise :
    ∀ (l : List Heading) (seen : List (String × String × ℕ)),
      (dedupGo seen l).Pairwise (fun a b => keyOf a ≠ keyOf b) := by
  intro l
  induction l with
  | nil => intro seen; exact List.Pairwise.nil
  | cons h t ih =>
    intro seen
    rw [dedupGo_cons]
    by_cases hk : keyOf h ∈ seen
    · rw [if_pos hk]
      exact ih seen
    · rw [if_neg hk]
      refine List.Pairwise.cons ?_ (ih _)
      intro y hy hEq
      have hny := dedupGo_key_not_mem t _ y hy
      exact hny (by rw [← hEq]; exact List.mem_cons_self _ _)

theorem mem_dedupGo :
    ∀ (l : List Heading) (seen : List (String × String × ℕ)) (x : Heading),
      x ∈ dedupGo seen l ↔
        keyOf x ∉ seen ∧
          ∃ l₁ l₂, l = l₁ ++ x :: l₂ ∧ ∀ y ∈ l₁, keyOf y ≠ keyOf x := by
  intro l
  induction l with
  | nil =>
    intro seen x
    constructor
    · intro hx
      exact absurd hx (List.not_mem_nil x)
    · rintro ⟨-, l₁, l₂, heq, -⟩
      rcases l₁ with - | ⟨a, l₁⟩
      · exact absurd heq.symm (List.cons_ne_nil x l₂)
      · exact absurd heq.symm (List.cons_ne_nil a (l₁ ++ x :: l₂))
  | cons h t ih =>
    intro seen x
    rw [dedupGo_cons]
    by_cases hk : keyOf h ∈ seen
    · rw [if_pos hk, ih]
      constructor
      · rintro ⟨hxs, l₁, l₂, heq, hpre⟩
        refine ⟨hxs, h :: l₁, l₂, by rw [heq, List.cons_append], ?_⟩
        intro y hy
        rcases List.mem_cons.mp hy with rfl | hy'
        · intro hEq
          exact hxs (hEq ▸ hk)
        · exact hpre y hy'
      · rintro ⟨hxs, l₁, l₂, heq, hpre⟩
        rcases l₁ with - | ⟨a, l₁⟩
        · simp only [List.nil_append] at heq
          injection heq with h1 h2
          subst h1
          exact absurd hk hxs
        · rw [List.cons_append] at heq
          injection heq with h1 h2
          subst h1
          exact ⟨hxs, l₁, l₂, h2, fun y hy => hpre y (List.mem_cons_of_mem _ hy)⟩
    · rw [if_neg hk, List.mem_cons, ih]
      constructor
      · rintro (rfl | ⟨hxs, l₁, l₂, heq, hpre⟩)
        · exact ⟨hk, [], t, rfl, fun y hy => absurd hy (List.not_mem_nil y)⟩
        · have hxh : keyOf x ≠ keyOf h := fun e =>
            hxs (by rw [e]; exact List.mem_cons_self _ _)
          have hxseen : keyOf x ∉ seen := fun e => hxs (List.mem_cons_of_mem _ e)
          refine ⟨hxseen, h :: l₁, l₂, by rw [heq, List.cons_append], ?_⟩
          intro y hy
          rcases List.mem_cons.mp hy with rfl | hy'
          · exact fun e => hxh e.symm
          · exact hpre y hy'
      · rintro ⟨hxs, l₁, l₂, heq, hpre⟩
        rcases l₁ with - | ⟨a, l₁⟩
        · simp only [List.nil_append] at heq
          injection heq with h1 h2
          exact Or.inl h1.symm
        · rw [List.cons_append] at heq
          injection heq with h1 h2
          subst h1
          right
          refine ⟨?_, l₁, l₂, h2, fun y hy => hpre y (List.mem_cons_of_mem _ hy)⟩
          intro hm
          rcases List.mem_cons.mp hm with e | e
          · exact hpre h (List.mem_cons_self _ _) e.symm
          · exact hxs e

/-- Unfolding of `extract_outline` on a successfully opened document. -/
theorem extract_outline_ok (doc : Document) :
    extract_outline (Except.ok doc)
      = if (allFragments doc).isEmpty = true
        then { title := extract_title doc, outline := [] }
        else { title := extract_title doc,
               outline := (dedupGo [] (rawHeadings doc)).mergeSort outlineLe } := rfl

/-- C4: the returned outline is sorted ascending by `(page_number, text)`:
consecutive-pair-wise (indeed pairwise) non-decreasing in page number, with
case-sensitive code-point text order breaking ties. -/
theorem outline_sorted_by_page_then_text (input : Except String Document) :
    (extract_outline input).outline.Pairwise (fun a b => outlineLe a b = true) := by
  cases input with
  | error e => exact List.Pairwise.nil
  | ok doc =>
    have hcases : (extract_outline (Except.ok doc)).outline = [] ∨
        (extract_outline (Except.ok doc)).outline
          = (dedupGo [] (rawHeadings doc)).mergeSort outlineLe := by
      rw [extract_outline_ok]
      by_cases hEmp : (allFragments doc).isEmpty = true
      · left
        rw [if_pos hEmp]
      · right
        rw [if_neg hEmp]
    rcases hcases with h | h
    · rw [h]
      exact List.Pairwise.nil
    · rw [h]
      exact List.sorted_mergeSort (fun a b c => outlineLe_trans a b c)
        (fun a b => outlineLe_total a b) _

/-- C3: no two entries of the returned outline share the dedup key
`(level, lower-cased text, page)`, and an entry appears in the outline
exactly when it is the first entry of its key in the classified stream. -/
theorem outline_nodup_keys_first_wins (doc : Document) :
    (extract_outline (Except.ok doc)).outline.Pairwise
      (fun a b => keyOf a ≠ keyOf b) ∧
    ∀ x, x ∈ (extract_outline (Except.ok doc)).outline ↔
      ∃ l₁ l₂, rawHeadings doc = l₁ ++ x :: l₂ ∧ ∀ y ∈ l₁, keyOf y ≠ keyOf x := by
  have hcases : ((extract_outline (Except.ok doc)).outline = [] ∧ rawHeadings doc = []) ∨
      (extract_outline (Except.ok doc)).outline
        = (dedupGo [] (rawHeadings doc)).mergeSort outlineLe := by
    rw [extract_outline_ok]
    by_cases hEmp : (allFragments doc).isEmpty = true
    · left
      rw [if_pos hEmp]
      refine ⟨rfl, ?_⟩
      unfold rawHeadings
      rw [List.isEmpty_iff.mp hEmp]
      rfl
    · right
      rw [if_neg hEmp]
  rcases hcases with ⟨h, hraw⟩ | h
  · constructor
    · rw [h]
      exact List.Pairwise.nil
    · intro x
      rw [h, hraw]
      constructor
      · intro hx
        exact absurd hx (List.not_mem_nil x)
      · rintro ⟨l₁, l₂, heq, -⟩
        rcases l₁ with - | ⟨a, l₁⟩
        · exact absurd heq.symm (List.cons_ne_nil x l₂)
        · exact absurd heq.symm (List.cons_ne_nil a (l₁ ++ x :: l₂))
  · constructor
    · rw [h]
      exact ((List.mergeSort_perm (dedupGo [] (rawHeadings doc)) outlineLe).pairwise_iff
        (fun hxy => Ne.symm hxy)).mpr (dedupGo_pairwise _ _)
    · intro x
      rw [h, List.mem_mergeSort, mem_dedupGo]
      constructor
      · rintro ⟨-, hx⟩
        exact hx
      · intro hx
        exact ⟨List.not_mem_nil (keyOf x), hx⟩
